import Mathlib

/-!
Verification of the dependency-graph engine of `Stage4.py` (class
`DependencyGraph`): the depth-first traversal `build_dependency_graph`,
the cycle post-pass `_process_cycles`, the multi-root driver
`build_complete_dependency_graph`, the test-file dependency source
`read_dependencies_from_test_file`, and the topological order engine
`calculate_load_order`.

Modelling conventions:
* Python `dict` (insertion ordered) is an association list
  `List (String × α)` with `dget`/`dset`; `dset` keeps the position of an
  existing key and appends a fresh key at the end, as CPython does.
* Python `set` is a duplicate-free list, stored in insertion order.  The
  one read that depends on a set's iteration order --
  `list(cycle_set)[0]` in `_process_cycles` -- is abstracted into a
  selection function `pick` (see `pc_step_with`): CPython iterates a set
  in hash order, so the program only guarantees that the chosen
  descriptor is an element of the set, and the results about
  `_process_cycles` are proved for every admissible selection.
* The dependency source (`get_package_dependencies`, which dispatches to
  the POM fetcher or the test file reader) is a parameter
  `fetch : String → Option String → Except String (List String)`;
  a raised exception is an `Except.error` carrying `str(e)`.
* String helpers (`strip`, `split`, `startswith`, `in`, `min`) are
  implemented structurally over `String.data` so that concrete runs
  reduce inside the kernel.
-/

/-- Characterwise test that `s` starts with the pattern `pat`
(first argument), mirroring Python `str.startswith`. -/
def charsLead : List Char → List Char → Bool
  | [], _ => true
  | _ :: _, [] => false
  | a :: as, b :: bs => decide (a = b) && charsLead as bs

/-- Python `s.startswith(pre)`. -/
def pyStartsWith (s pre : String) : Bool :=
  charsLead pre.data s.data

/-- Characters removed by Python `str.strip()` (ASCII whitespace). -/
def isPySpace (c : Char) : Bool :=
  decide (c = ' ' ∨ c = '\t' ∨ c = '\n' ∨ c = '\r' ∨ c = '\x0b' ∨ c = '\x0c')

/-- Python `s.strip()`. -/
def pyTrim (s : String) : String :=
  ⟨((s.data.dropWhile isPySpace).reverse.dropWhile isPySpace).reverse⟩

/-- Split on a single character, mirroring Python `s.split(c)`
(always returns at least one piece). -/
def splitOnChar (c : Char) : List Char → List (List Char)
  | [] => [[]]
  | x :: xs =>
    match splitOnChar c xs with
    | [] => [[]]
    | t :: ts => if decide (x = c) then [] :: t :: ts else (x :: t) :: ts

/-- Python `s.split(c, 1)`: cut at the first occurrence of `c`, if any. -/
def splitOnceChar (c : Char) : List Char → Option (List Char × List Char)
  | [] => none
  | x :: xs =>
    if decide (x = c) then some ([], xs)
    else
      match splitOnceChar c xs with
      | none => none
      | some p => some (x :: p.1, p.2)

/-- Python `line.split(':', 1)` packaged for strings. -/
def pySplitOnce (c : Char) (s : String) : Option (String × String) :=
  (splitOnceChar c s.data).map (fun p => (⟨p.1⟩, ⟨p.2⟩))

/-- Left-to-right, non-overlapping split on a multi-character separator,
structural in an explicit fuel (every step consumes at least one input
character, so `fuel = length + 1` makes the fuel cutoff unreachable).
Mirrors Python `s.split(sep)` for a non-empty `sep`. -/
def splitFuel (sep : List Char) : Nat → List Char → List Char → List (List Char)
  | 0, rest, acc => [acc.reverse ++ rest]
  | _ + 1, [], acc => [acc.reverse]
  | fuel + 1, c :: rest, acc =>
    if charsLead sep (c :: rest) then
      acc.reverse :: splitFuel sep fuel ((c :: rest).drop sep.length) []
    else
      splitFuel sep fuel rest (c :: acc)

/-- Python `s.split(sep)` for a non-empty separator. -/
def pySplit (sep s : String) : List String :=
  (splitFuel sep.data (s.data.length + 1) s.data []).map (fun l => ⟨l⟩)

/-- Python `sep.join(parts)`. -/
def pyJoin (sep : String) : List String → String
  | [] => ""
  | [x] => x
  | x :: y :: ys => x ++ sep ++ pyJoin sep (y :: ys)

/-- Code-point lexicographic `<` on character lists, the order Python uses
to compare strings. -/
def charsLt : List Char → List Char → Bool
  | _, [] => false
  | [], _ :: _ => true
  | a :: as, b :: bs =>
    if a.toNat < b.toNat then true
    else if b.toNat < a.toNat then false
    else charsLt as bs

/-- Python `a < b` on strings. -/
def pyStrLt (a b : String) : Bool := charsLt a.data b.data

/-- Python `min(xs)` over strings (lexicographic, first minimum wins),
with a default for the empty list (the code guards emptiness
separately). -/
def pyMinList (xs : List String) (dflt : String) : String :=
  match xs with
  | [] => dflt
  | x :: rest => rest.foldl (fun m y => if pyStrLt y m then y else m) x

/-- Lookup in an insertion-ordered association list (Python `d[k]` /
`k in d` read side). -/
def dget {α : Type} (d : List (String × α)) (k : String) : Option α :=
  match d with
  | [] => none
  | p :: rest => if p.1 = k then some p.2 else dget rest k

/-- `(dget d k).getD dflt`: Python `defaultdict` read. -/
def dgetD {α : Type} (d : List (String × α)) (k : String) (dflt : α) : α :=
  (dget d k).getD dflt

/-- Assignment `d[k] = v` on an insertion-ordered association list: an
existing key keeps its position, a fresh key is appended at the end,
exactly the CPython `dict` behaviour. -/
def dset {α : Type} (d : List (String × α)) (k : String) (v : α) : List (String × α) :=
  match d with
  | [] => [(k, v)]
  | p :: rest => if p.1 = k then (k, v) :: rest else p :: dset rest k v

/-- Python `set.add` on the duplicate-free list model. -/
def sadd (s : List String) (x : String) : List String :=
  if x ∈ s then s else s ++ [x]

/-- The mutable state of a `DependencyGraph` instance: `graph`, `visited`,
`visiting`, `cycles` and `original_dependencies` from `Stage4.py`. -/
structure GraphState where
  graph : List (String × List String)
  visited : List String
  visiting : List String
  cycles : List (String × List String)
  original_dependencies : List (String × List String)
deriving Repr, DecidableEq

/-- The state a fresh `DependencyGraph()` starts from. -/
def empty_state : GraphState := ⟨[], [], [], [], []⟩

/-- `_should_filter_package`: a non-empty filter matches when it is a
substring of the package name (`package_filter in package_name`); the
substring test is expressed through `splitFuel`, which yields more than
one piece exactly when the separator occurs. -/
def should_filter_package (package_name package_filter : String) : Bool :=
  if package_filter = "" then false
  else decide ((pySplit package_filter package_name).length ≠ 1)

/-- `self.cycles[node].add(cycle_key)` preceded by
`if node not in self.cycles: self.cycles[node] = set()`; the registry set
is modelled as an insertion-ordered duplicate-free list. -/
def cycles_add (c : List (String × List String)) (node cycle_key : String) :
    List (String × List String) :=
  match dget c node with
  | none => dset c node [cycle_key]
  | some ds => dset c node (if cycle_key ∈ ds then ds else ds ++ [cycle_key])

/-- One level of `build_dependency_graph`, structural in
`fuel = max_depth + 1 - depth`.  `fuel = 0` is exactly the Python guard
`depth > max_depth` (truncated subtraction), and the recursive call at
`depth + 1` is the call at `fuel - 1`.  The branches below follow the
source in order: depth cutoff, filter, back-edge (cycle), already
visited, and the expand step with its `try/except/finally`. -/
def buildLevel (fetch : String → Option String → Except String (List String))
    (is_test_mode : Bool) (package_filter : String) :
    Nat → String → Option String → GraphState → GraphState
  | 0, package_name, _, s =>
    { s with graph := dset s.graph package_name ["MAX_DEPTH_REACHED"] }
  | fuel + 1, package_name, version, s =>
    if should_filter_package package_name package_filter then
      { s with graph := dset s.graph package_name ["FILTERED"] }
    else if package_name ∈ s.visiting then
      let cycle_path :=
        s.visiting.drop (s.visiting.findIdx (fun x => x == package_name)) ++ [package_name]
      let cycle_key := pyJoin " -> " cycle_path
      { s with
        cycles := cycle_path.foldl (fun c n => cycles_add c n cycle_key) s.cycles,
        graph := if (dget s.graph package_name).isSome then s.graph
                 else dset s.graph package_name [] }
    else if package_name ∈ s.visited then s
    else
      let s1 := { s with visiting := s.visiting ++ [package_name] }
      match fetch package_name version with
      | Except.error e =>
        let s2 := { s1 with graph := dset s1.graph package_name ["ERROR: " ++ e] }
        { s2 with
          visiting := s2.visiting.erase package_name,
          visited := sadd s2.visited package_name }
      | Except.ok dependencies =>
        let s2 := { s1 with
          original_dependencies := dset s1.original_dependencies package_name dependencies,
          graph := dset s1.graph package_name dependencies }
        let dep_version := if is_test_mode then none else version
        let s3 := dependencies.foldl
          (fun st dep => buildLevel fetch is_test_mode package_filter fuel dep dep_version st) s2
        { s3 with
          visiting := s3.visiting.erase package_name,
          visited := sadd s3.visited package_name }

/-- `build_dependency_graph(package_name, version, repository_url,
is_test_mode, package_filter, depth, max_depth)`; `repository_url` and
the source mode dispatch live inside `fetch`.  The Python recursion on
`depth` is realised through `buildLevel` at fuel
`max_depth + 1 - depth`. -/
def build_dependency_graph (fetch : String → Option String → Except String (List String))
    (is_test_mode : Bool) (package_filter : String)
    (package_name : String) (version : Option String)
    (depth max_depth : Nat) (s : GraphState) : GraphState :=
  buildLevel fetch is_test_mode package_filter (max_depth + 1 - depth) package_name version s

/-- One iteration of the `_process_cycles` loop, acting on the graph `g`
for the registry row `row = (node, cycle_set)`: when the node has a graph
entry and a non-empty registry set, take `list(cycle_set)[0]` (head of
the insertion-ordered model), split its path on `" -> "`, pick the
lexicographically smallest node of that path, and either collapse the
representative to `["CYCLE: " ++ descriptor]` or restore the
`original_dependencies` snapshot when one exists. -/
def pc_step (original_dependencies : List (String × List String))
    (g : List (String × List String)) (row : String × List String) :
    List (String × List String) :=
  match row.2 with
  | [] => g
  | d :: _ =>
    if (dget g row.1).isSome then
      let cycle_desc := "CYCLE: " ++ d
      let cycle_nodes := pySplit " -> " d
      let first_cycle_node := pyMinList cycle_nodes row.1
      if row.1 = first_cycle_node then dset g row.1 [cycle_desc]
      else
        match dget original_dependencies row.1 with
        | some orig => dset g row.1 orig
        | none => g
    else g

/-- `_process_cycles`: fold the loop body over the registry rows in
insertion order; only `graph` is mutated. -/
def process_cycles (s : GraphState) : GraphState :=
  { s with graph := s.cycles.foldl (pc_step s.original_dependencies) s.graph }

/-- One iteration of the `_process_cycles` loop with the descriptor
selection `list(cycle_set)[0]` abstracted into `pick`: CPython iterates
a `set` in hash order (`PYTHONHASHSEED`-dependent), so the program text
only guarantees that the chosen descriptor is an element of the set --
every run of the source is `pc_step_with pick` for some `pick` with
`pick node cycle_set ∈ cycle_set`.  `pc_step` is the head instance
(`process_cycles_eq_head`). -/
def pc_step_with (pick : String → List String → String)
    (original_dependencies : List (String × List String))
    (g : List (String × List String)) (row : String × List String) :
    List (String × List String) :=
  match row.2 with
  | [] => g
  | _ :: _ =>
    if (dget g row.1).isSome then
      let d := pick row.1 row.2
      let cycle_desc := "CYCLE: " ++ d
      let cycle_nodes := pySplit " -> " d
      let first_cycle_node := pyMinList cycle_nodes row.1
      if row.1 = first_cycle_node then dset g row.1 [cycle_desc]
      else
        match dget original_dependencies row.1 with
        | some orig => dset g row.1 orig
        | none => g
    else g

/-- `_process_cycles` with the per-node descriptor selection left
abstract. -/
def process_cycles_with (pick : String → List String → String) (s : GraphState) :
    GraphState :=
  { s with graph := s.cycles.foldl (pc_step_with pick s.original_dependencies) s.graph }

/-- `build_complete_dependency_graph`: expand every externally enumerated
package that is not yet visited (version `None`, default filter, depths
`0`/`10`), then run `_process_cycles`.  The enumeration of the test file
is passed in as `all_packages`. -/
def build_complete_dependency_graph
    (fetch : String → Option String → Except String (List String))
    (is_test_mode : Bool) (all_packages : List String) (s : GraphState) : GraphState :=
  process_cycles
    (all_packages.foldl
      (fun st package =>
        if package ∈ st.visited then st
        else build_dependency_graph fetch is_test_mode "" package none 0 10 st) s)

/-- Does a (raw) line of the test file select dependencies for
`package_name`: after stripping, the line is non-empty, contains a colon,
is not a comment, and its first field strips to `package_name`. -/
def line_matches (package_name line : String) : Bool :=
  let l := pyTrim line
  decide (l ≠ "") && l.data.any (fun c => c == ':') && !(pyStartsWith l "#") &&
    (match pySplitOnce ':' l with
     | some p => decide (pyTrim p.1 = package_name)
     | none => false)

/-- The per-line loop of `read_dependencies_from_test_file`: the first
matching line wins and its comma-separated right-hand side is stripped
and filtered; when no line matches the loop falls through to `[]`. -/
def find_deps_in_lines (package_name : String) : List String → List String
  | [] => []
  | line :: rest =>
    let l := pyTrim line
    if decide (l ≠ "") && l.data.any (fun c => c == ':') && !(pyStartsWith l "#") then
      match pySplitOnce ':' l with
      | some p =>
        if pyTrim p.1 = package_name then
          let deps_str := pyTrim p.2
          ((splitOnChar ',' deps_str.data).map (fun d => pyTrim ⟨d⟩)).filter (fun d => d != "")
        else find_deps_in_lines package_name rest
      | none => find_deps_in_lines package_name rest
    else find_deps_in_lines package_name rest

/-- `read_dependencies_from_test_file(package_name, test_repo_path)`; the
file system is out of scope, so the file's text is the `content`
argument, split on newlines just as `content.split('\n')` does. -/
def read_dependencies_from_test_file (package_name content : String) : List String :=
  find_deps_in_lines package_name ((splitOnChar '\n' content.data).map (fun l => ⟨l⟩))

/-- `get_package_dependencies` in test mode: the reader never raises once
the file text is in hand, so the fetch always succeeds. -/
def test_mode_fetch (content : String) :
    String → Option String → Except String (List String) :=
  fun package_name _ => Except.ok (read_dependencies_from_test_file package_name content)

/-- The sentinel test of `calculate_load_order`: edge labels with these
prefixes do not count as real dependencies. -/
def is_sentinel_dep (dep : String) : Bool :=
  pyStartsWith dep "CYCLE:" || pyStartsWith dep "ERROR:" ||
    pyStartsWith dep "FILTERED" || pyStartsWith dep "MAX_DEPTH_REACHED"

/-- The body of the first loop of `calculate_load_order` for one graph
row: seed the package at in-degree `0`, then for each non-sentinel edge
append the package to `reverse_graph[dep]` and bump
`in_degree[package]`. -/
def degrees_step (acc : List (String × Int) × List (String × List String))
    (package : String) (dependencies : List String) :
    List (String × Int) × List (String × List String) :=
  let acc0 := if (dget acc.1 package).isSome then acc else (dset acc.1 package 0, acc.2)
  dependencies.foldl
    (fun a dep =>
      if is_sentinel_dep dep then a
      else
        (dset a.1 package (dgetD a.1 package 0 + 1),
         dset a.2 dep (dgetD a.2 dep [] ++ [package])))
    acc0

/-- The in-degree and reverse-adjacency tables of `calculate_load_order`,
built over the graph rows in insertion order. -/
def build_degrees (graph : List (String × List String)) :
    List (String × Int) × List (String × List String) :=
  graph.foldl (fun acc row => degrees_step acc row.1 row.2) ([], [])

/-- The inner `for dependent in reverse_graph[current]` loop: decrement
the dependent's in-degree and enqueue it when it reaches `0`. -/
def process_dependents (dependents : List String)
    (st : List (String × Int) × List String) :
    List (String × Int) × List String :=
  match dependents with
  | [] => st
  | dep :: rest =>
    let v := dgetD st.1 dep 0 - 1
    let ind := dset st.1 dep v
    let q := if v = 0 then st.2 ++ [dep] else st.2
    process_dependents rest (ind, q)

/-- The `while queue` loop of Kahn's algorithm, structural in an explicit
fuel.  Every loop iteration performs one pop, the number of pops equals
the number of pushes, and pushes are bounded by the seeds plus one per
reverse edge, so the fuel chosen in `calculate_load_order` makes the
fuel cutoff unreachable. -/
def kahn_loop (reverse_graph : List (String × List String)) :
    Nat → List String → List (String × Int) → List String → List String
  | _, [], _, load_order => load_order
  | 0, _ :: _, _, load_order => load_order
  | fuel + 1, current :: queue, in_degree, load_order =>
    let p := process_dependents (dgetD reverse_graph current []) (in_degree, queue)
    kahn_loop reverse_graph fuel p.2 p.1 (load_order ++ [current])

/-- Total length of all edge lists of the graph, part of the fuel bound
for `kahn_loop`. -/
def total_edges (graph : List (String × List String)) : Nat :=
  graph.foldl (fun n row => n + row.2.length) 0

/-- `calculate_load_order(start_package)`: fail on an empty Graph Store,
otherwise run Kahn's algorithm over the sentinel-filtered edges, seeding
the queue with the zero-in-degree packages in graph key order, and append
any not-yet-ordered packages in graph key order when the produced order
is shorter than the graph (`start_package` is accepted but never
consulted, as in the source). -/
def calculate_load_order (start_package : String) (s : GraphState) :
    Except String (List String) :=
  if s.graph = [] then Except.error "Граф зависимостей не построен"
  else
    let dr := build_degrees s.graph
    let queue := (s.graph.map (fun row => row.1)).filter
      (fun package => decide (dgetD dr.1 package 0 = 0))
    let fuel := s.graph.length + total_edges s.graph + 1
    let load_order := kahn_loop dr.2 fuel queue dr.1 []
    if load_order.length ≠ s.graph.length then
      Except.ok (s.graph.foldl
        (fun lo row => if row.1 ∈ lo then lo else lo ++ [row.1]) load_order)
    else Except.ok load_order

def claim3_fetch : String → Option String → Except String (List String) :=
  fun _ _ => Except.ok []

/-- A completed traversal of the single leaf node `A`:
`graph = [("A", [])]`, `visited = ["A"]`. -/
def claim3_state : GraphState :=
  build_dependency_graph claim3_fetch true "" "A" none 0 10 empty_state

/-- Fetch, traversal result and claim for Scenario A (C7). -/
def claim7_fetch : String → Option String → Except String (List String) :=
  test_mode_fetch "A: B\nB: C\nC: D\nD:"

def claim7_state : GraphState :=
  process_cycles (build_dependency_graph claim7_fetch true "" "A" none 0 10 empty_state)

/-- The two-cycle scenario refuting claim C2: edges `A: B`, `B: A, C`,
`C: B`.  The traversal records descriptor `A -> B -> A` first for both
`A` and `B`, and `B -> C -> B` for `B` and `C`. -/
def claim2_fetch : String → Option String → Except String (List String) :=
  test_mode_fetch "A: B\nB: A, C\nC: B"

def claim2_pre : GraphState :=
  build_dependency_graph claim2_fetch true "" "A" none 0 10 empty_state

/-- Selection taking the first element of the (insertion-ordered)
registry entry -- one admissible outcome of `list(cycle_set)[0]`. -/
def claim2_pick_first : String → List String → String :=
  fun _ cycle_set => cycle_set.headD ""

/-- Selection taking the last element of the registry entry -- the other
admissible outcome at the two-cycle scenario, where no registry entry
has more than two descriptors. -/
def claim2_pick_last : String → List String → String :=
  fun _ cycle_set => cycle_set.getLastD ""

/-- Outcome of `_process_cycles` on the two-cycle traversal when the
set iterator yields `A -> B -> A` first at `B`. -/
def claim2_state_a : GraphState := process_cycles_with claim2_pick_first claim2_pre

/-- Outcome of `_process_cycles` on the two-cycle traversal when the
set iterator yields `B -> C -> B` first at `B`. -/
def claim2_state_b : GraphState := process_cycles_with claim2_pick_last claim2_pre

/-- The loop invariant of `kahn_loop` over the combined list
`load_order ++ queue`. -/
def kahn_inv (keys : List String) (in_degree : List (String × Int)) (l : List String) : Prop :=
  l.Nodup ∧ (∀ x ∈ l, x ∈ keys) ∧ (∀ x ∈ l, dgetD in_degree x 0 ≤ 0)

/-- All packages stored in the reverse-adjacency lists are graph keys. -/
def rev_values_in (reverse_graph : List (String × List String)) (keys : List String) : Prop :=
  ∀ x : String, ∀ p ∈ dgetD reverse_graph x [], p ∈ keys

def claim1_example_state : GraphState :=
  ⟨[("A", ["B", "ERROR: boom"]), ("B", ["A"]), ("C", ["FILTERED"])], [], [], [], []⟩

/-- Number of graph keys the loop has not seen yet (neither ordered nor
queued). -/
def missing_count (keys l : List String) : Nat :=
  (keys.filter (fun x => decide (¬ x ∈ l))).length

/-! Basic facts about the association-list dictionary. -/

theorem dget_dset_self {α : Type} (d : List (String × α)) (k : String) (v : α) :
    dget (dset d k v) k = some v := by
  induction d with
  | nil => simp [dget, dset]
  | cons p rest ih =>
    by_cases h : p.1 = k
    · simp [dset, h, dget]
    · simp [dset, h, dget, ih]

theorem dget_dset_ne {α : Type} (d : List (String × α)) (k k' : String) (v : α)
    (h : k' ≠ k) : dget (dset d k v) k' = dget d k' := by
  induction d with
  | nil =>
    have : ¬ (k = k') := fun hh => h hh.symm
    simp [dget, dset, this]
  | cons p rest ih =>
    by_cases hp : p.1 = k
    · have : ¬ (k = k') := fun hh => h hh.symm
      simp [dset, hp, dget, this]
    · simp [dset, hp, dget, ih]

theorem dget_isSome_iff_mem {α : Type} (d : List (String × α)) (k : String) :
    (dget d k).isSome ↔ k ∈ d.map Prod.fst := by
  induction d with
  | nil => simp [dget]
  | cons p rest ih =>
    by_cases h : p.1 = k
    · simp [dget, h]
    · have : ¬ (k = p.1) := fun hh => h hh.symm
      simp [dget, h, ih, this]

/-- Claim C6: a call with `depth > maxDepth` sets the node's Graph entry
to `[MAX_DEPTH_REACHED]` and returns with every other state component
unchanged -- no fetch (the statement holds for every fetch function), no
recursion, and the node is added to neither Visited nor VisitingPath, so
a later visit at a lower depth can still expand it. -/
theorem claim6_depth_cutoff (fetch : String → Option String → Except String (List String))
    (is_test_mode : Bool) (package_filter package_name : String) (version : Option String)
    (depth max_depth : Nat) (s : GraphState) (hd : depth > max_depth) :
    build_dependency_graph fetch is_test_mode package_filter package_name version depth max_depth s
      = { s with graph := dset s.graph package_name ["MAX_DEPTH_REACHED"] } := by
  have h0 : max_depth + 1 - depth = 0 := by omega
  unfold build_dependency_graph
  rw [h0]
  rfl

theorem claim6_witness :
    build_dependency_graph (fun _ _ => Except.ok []) true "" "A" none 11 10 empty_state
      = { empty_state with graph := dset empty_state.graph "A" ["MAX_DEPTH_REACHED"] } :=
  claim6_depth_cutoff _ _ _ _ _ _ _ _ (by decide)

/-- Claim C5: when the Dependency Source fails while expanding a node,
the final state is exactly the input state with
`Graph[node] = ["ERROR: <message>"]` and the node added to Visited --
VisitingPath is restored (the cleanup ran), no other component changes
(so zero children were recursed into), and the call returns an ordinary
state rather than propagating the failure, which is why sibling
subtrees always complete. -/
theorem claim5_fetch_error (fetch : String → Option String → Except String (List String))
    (is_test_mode : Bool) (package_filter package_name : String) (version : Option String)
    (depth max_depth : Nat) (s : GraphState) (e : String)
    (hd : depth ≤ max_depth)
    (hf : should_filter_package package_name package_filter = false)
    (hv : package_name ∉ s.visiting) (hvd : package_name ∉ s.visited)
    (hfe : fetch package_name version = Except.error e) :
    build_dependency_graph fetch is_test_mode package_filter package_name version depth max_depth s
      = { s with graph := dset s.graph package_name ["ERROR: " ++ e],
                 visited := sadd s.visited package_name } := by
  obtain ⟨n, hn⟩ : ∃ n, max_depth + 1 - depth = n + 1 := ⟨max_depth - depth, by omega⟩
  unfold build_dependency_graph
  rw [hn]
  simp only [buildLevel, hf, Bool.false_eq_true, if_false, if_neg hv, if_neg hvd, hfe]
  rw [List.erase_append_right _ hv, List.erase_cons_head, List.append_nil]

theorem claim5_witness :
    build_dependency_graph (fun _ _ => Except.error "boom") true "" "X" none 0 10 empty_state
      = { empty_state with graph := dset empty_state.graph "X" ["ERROR: " ++ "boom"],
                           visited := sadd empty_state.visited "X" } :=
  claim5_fetch_error _ _ _ _ _ _ _ _ _ (by decide) rfl (by decide) (by decide) rfl

/-- Claim C3, counterexample: re-expanding the already-Visited node `A`
with `depth = 1 > maxDepth = 0` is not a no-op -- the depth cutoff is
checked before the Visited check and overwrites `Graph[A]` with
`[MAX_DEPTH_REACHED]`.  This refutes the claim for arbitrary `depth` /
`maxDepth` arguments. -/
theorem claim3_counterexample :
    "A" ∈ claim3_state.visited ∧
    build_dependency_graph claim3_fetch true "" "A" none 1 0 claim3_state ≠ claim3_state ∧
    dget (build_dependency_graph claim3_fetch true "" "A" none 1 0 claim3_state).graph "A"
      = some ["MAX_DEPTH_REACHED"] := by
  exact ⟨by decide, by decide, by decide⟩

/-- Claim C3, amended: re-expanding an already-Visited node is a no-op
(the state is returned unchanged, for every fetch function, hence
nothing is re-fetched and no recursion occurs) provided
`depth ≤ maxDepth`, the filter does not match the node and the node is
not on VisitingPath -- the three checks that precede the Visited check
in the source. -/
theorem claim3_visited_noop (fetch : String → Option String → Except String (List String))
    (is_test_mode : Bool) (package_filter package_name : String) (version : Option String)
    (depth max_depth : Nat) (s : GraphState)
    (hvd : package_name ∈ s.visited)
    (hd : depth ≤ max_depth)
    (hf : should_filter_package package_name package_filter = false)
    (hv : package_name ∉ s.visiting) :
    build_dependency_graph fetch is_test_mode package_filter package_name version depth max_depth s
      = s := by
  obtain ⟨n, hn⟩ : ∃ n, max_depth + 1 - depth = n + 1 := ⟨max_depth - depth, by omega⟩
  unfold build_dependency_graph
  rw [hn]
  simp only [buildLevel, hf, Bool.false_eq_true, if_false, if_neg hv, if_pos hvd]

theorem claim3_witness :
    build_dependency_graph claim3_fetch true "" "A" none 0 10 claim3_state = claim3_state :=
  claim3_visited_noop _ _ _ _ _ _ _ _ (by decide) (by decide) rfl (by decide)

/-- Claim C9: `calculate_load_order` never consults its `start_package`
argument; for a fixed Graph Store state any two start packages yield
definitionally the same result. -/
theorem claim9_start_package_irrelevant (a b : String) (s : GraphState) :
    calculate_load_order a s = calculate_load_order b s := rfl

/-- Claim C7: for the linear chain `A: B`, `B: C`, `C: D`, `D:` (no
filter, no depth cutoff, no fetch failure) the built graph is exactly
the chain and `calculate_load_order` returns `[D, C, B, A]`. -/
theorem claim7_linear_chain :
    claim7_state.graph = [("A", ["B"]), ("B", ["C"]), ("C", ["D"]), ("D", [])] ∧
    calculate_load_order "A" claim7_state = Except.ok ["D", "C", "B", "A"] :=
  ⟨rfl, rfl⟩

/-- When no line of the test file matches the package, the line loop of
the reader falls through and returns the empty list. -/
theorem find_deps_nil (package_name : String) (lines : List String)
    (h : ∀ line ∈ lines, line_matches package_name line = false) :
    find_deps_in_lines package_name lines = [] := by
  induction lines with
  | nil => rfl
  | cons line rest ih =>
    have hl := h line (List.mem_cons_self _ _)
    have hrest : ∀ l ∈ rest, line_matches package_name l = false :=
      fun l hm => h l (List.mem_cons_of_mem _ hm)
    unfold find_deps_in_lines
    unfold line_matches at hl
    by_cases hguard : (decide (pyTrim line ≠ "") && (pyTrim line).data.any (fun c => c == ':') &&
        !(pyStartsWith (pyTrim line) "#")) = true
    · rw [if_pos hguard]
      simp only [hguard, Bool.true_and] at hl
      cases hsp : pySplitOnce ':' (pyTrim line) with
      | none => exact ih hrest
      | some p =>
        rw [hsp] at hl
        simp only [decide_eq_false_iff_not] at hl
        show (if pyTrim p.1 = package_name then
            ((splitOnChar ',' (pyTrim p.2).data).map
              (fun d => pyTrim ⟨d⟩)).filter (fun d => d != "")
          else find_deps_in_lines package_name rest) = []
        rw [if_neg hl]
        exact ih hrest
    · rw [if_neg hguard]
      exact ih hrest

/-- Claim C10: in test (file-backed) mode, a node with no matching line
in the test file yields the empty dependency list rather than a failure,
and the traversal then records the node in the Graph with an empty edge
list (and an empty OriginalDependencies snapshot), not an `ERROR:`
sentinel. -/
theorem claim10_missing_package (package_name content package_filter : String)
    (depth max_depth : Nat) (s : GraphState)
    (hno : ∀ line ∈ (splitOnChar '\n' content.data).map (fun l => (⟨l⟩ : String)),
      line_matches package_name line = false)
    (hd : depth ≤ max_depth)
    (hf : should_filter_package package_name package_filter = false)
    (hv : package_name ∉ s.visiting) (hvd : package_name ∉ s.visited) :
    read_dependencies_from_test_file package_name content = [] ∧
    build_dependency_graph (test_mode_fetch content) true package_filter package_name none
        depth max_depth s
      = { s with graph := dset s.graph package_name [],
                 original_dependencies := dset s.original_dependencies package_name [],
                 visited := sadd s.visited package_name } := by
  have hr : read_dependencies_from_test_file package_name content = [] :=
    find_deps_nil _ _ hno
  refine ⟨hr, ?_⟩
  have hfe : test_mode_fetch content package_name none = Except.ok [] := by
    unfold test_mode_fetch
    rw [hr]
  obtain ⟨n, hn⟩ : ∃ n, max_depth + 1 - depth = n + 1 := ⟨max_depth - depth, by omega⟩
  unfold build_dependency_graph
  rw [hn]
  simp only [buildLevel, hf, Bool.false_eq_true, if_false, if_neg hv, if_neg hvd, hfe,
    List.foldl_nil]
  rw [List.erase_append_right _ hv, List.erase_cons_head, List.append_nil]

theorem claim10_witness :
    read_dependencies_from_test_file "A" "B: C" = [] ∧
    build_dependency_graph (test_mode_fetch "B: C") true "" "A" none 0 10 empty_state
      = { empty_state with graph := dset empty_state.graph "A" [],
                           original_dependencies := dset empty_state.original_dependencies "A" [],
                           visited := sadd empty_state.visited "A" } :=
  claim10_missing_package "A" "B: C" "" 0 10 empty_state (by decide) (by decide) rfl
    (by decide) (by decide)

/-- Pointwise agreement of the selection on the registry rows makes the
steps of `_process_cycles` agree. -/
theorem pc_step_with_congr (orig g : List (String × List String))
    (row : String × List String) (p q : String → List String → String)
    (h : p row.1 row.2 = q row.1 row.2) :
    pc_step_with p orig g row = pc_step_with q orig g row := by
  obtain ⟨node, ds⟩ := row
  cases ds with
  | nil => rfl
  | cons d tl =>
    unfold pc_step_with
    dsimp only
    dsimp only at h
    rw [h]

theorem pc_fold_with_congr (orig : List (String × List String))
    (p q : String → List String → String) :
    ∀ (rows : List (String × List String)) (g : List (String × List String)),
      (∀ row ∈ rows, p row.1 row.2 = q row.1 row.2) →
      rows.foldl (pc_step_with p orig) g = rows.foldl (pc_step_with q orig) g := by
  intro rows
  induction rows with
  | nil => intro g _; rfl
  | cons row rest ih =>
    intro g h
    rw [List.foldl_cons, List.foldl_cons,
      pc_step_with_congr _ _ _ _ _ (h _ (List.mem_cons_self _ _))]
    exact ih _ (fun r hr => h r (List.mem_cons_of_mem _ hr))

theorem process_cycles_with_congr (p q : String → List String → String) (s : GraphState)
    (h : ∀ row ∈ s.cycles, p row.1 row.2 = q row.1 row.2) :
    process_cycles_with p s = process_cycles_with q s := by
  unfold process_cycles_with
  rw [pc_fold_with_congr _ _ _ _ _ h]

/-- The pipeline's `process_cycles` is the head instance of the
abstracted resolver: one admissible outcome of `list(cycle_set)[0]`. -/
theorem process_cycles_eq_head (s : GraphState) :
    process_cycles s
      = process_cycles_with (fun _ cycle_set => cycle_set.headD "") s := by
  unfold process_cycles process_cycles_with
  have hfold : ∀ (rows : List (String × List String)) (g : List (String × List String)),
      rows.foldl (pc_step s.original_dependencies) g
        = rows.foldl (pc_step_with (fun _ cycle_set => cycle_set.headD "")
            s.original_dependencies) g := by
    intro rows
    induction rows with
    | nil => intro g; rfl
    | cons row rest ih =>
      intro g
      have hstep : pc_step s.original_dependencies g row
          = pc_step_with (fun _ cycle_set => cycle_set.headD "")
              s.original_dependencies g row := by
        obtain ⟨node, ds⟩ := row
        cases ds with
        | nil => rfl
        | cons d tl => rfl
      rw [List.foldl_cons, List.foldl_cons, hstep]
      exact ih _
  rw [hfold]

theorem pc_step_with_other (pick : String → List String → String)
    (orig g : List (String × List String)) (row : String × List String)
    (k : String) (hk : k ≠ row.1) :
    dget (pc_step_with pick orig g row) k = dget g k := by
  obtain ⟨node, ds⟩ := row
  unfold pc_step_with
  cases ds with
  | nil => rfl
  | cons d tl =>
    dsimp only
    by_cases hg : (dget g node).isSome
    · rw [if_pos hg]
      by_cases hrep : node = pyMinList (pySplit " -> " (pick node (d :: tl))) node
      · rw [if_pos hrep]
        exact dget_dset_ne _ _ _ _ hk
      · rw [if_neg hrep]
        cases ho : dget orig node with
        | some o => exact dget_dset_ne _ _ _ _ hk
        | none => rfl
    · rw [if_neg hg]

theorem pc_step_with_isSome (pick : String → List String → String)
    (orig g : List (String × List String)) (row : String × List String)
    (k : String) : (dget (pc_step_with pick orig g row) k).isSome = (dget g k).isSome := by
  by_cases hk : k = row.1
  · subst hk
    obtain ⟨node, ds⟩ := row
    unfold pc_step_with
    cases ds with
    | nil => rfl
    | cons d tl =>
      dsimp only
      by_cases hg : (dget g node).isSome
      · rw [if_pos hg]
        by_cases hrep : node = pyMinList (pySplit " -> " (pick node (d :: tl))) node
        · rw [if_pos hrep, dget_dset_self]
          exact hg.symm
        · rw [if_neg hrep]
          cases ho : dget orig node with
          | some o => rw [dget_dset_self]; exact hg.symm
          | none => rfl
      · rw [if_neg hg]
  · rw [pc_step_with_other _ _ _ _ _ hk]

theorem pc_step_with_self (pick : String → List String → String)
    (orig g : List (String × List String)) (node : String) (ds : List String)
    (hne : ds ≠ []) (hg : (dget g node).isSome) :
    dget (pc_step_with pick orig g (node, ds)) node =
      (if node = pyMinList (pySplit " -> " (pick node ds)) node
       then some ["CYCLE: " ++ pick node ds]
       else match dget orig node with
            | some o => some o
            | none => dget g node) := by
  cases ds with
  | nil => exact absurd rfl hne
  | cons d tl =>
    unfold pc_step_with
    dsimp only
    rw [if_pos hg]
    by_cases hrep : node = pyMinList (pySplit " -> " (pick node (d :: tl))) node
    · rw [if_pos hrep, if_pos hrep]
      exact dget_dset_self _ _ _
    · rw [if_neg hrep, if_neg hrep]
      cases ho : dget orig node with
      | some o => exact dget_dset_self _ _ _
      | none => rfl

theorem pc_fold_with_not_mem (pick : String → List String → String)
    (orig : List (String × List String))
    (rows : List (String × List String)) (g : List (String × List String)) (k : String)
    (hk : k ∉ rows.map Prod.fst) :
    dget (rows.foldl (pc_step_with pick orig) g) k = dget g k := by
  induction rows generalizing g with
  | nil => rfl
  | cons row rest ih =>
    simp only [List.map_cons, List.mem_cons, not_or] at hk
    rw [List.foldl_cons, ih _ hk.2, pc_step_with_other _ _ _ _ _ hk.1]

theorem pc_fold_with_mem (pick : String → List String → String)
    (orig rows g : List (String × List String)) (node : String) (ds : List String)
    (hnodup : (rows.map Prod.fst).Nodup)
    (hmem : (node, ds) ∈ rows) (hne : ds ≠ [])
    (hg : (dget g node).isSome) :
    dget (rows.foldl (pc_step_with pick orig) g) node =
      (if node = pyMinList (pySplit " -> " (pick node ds)) node
       then some ["CYCLE: " ++ pick node ds]
       else match dget orig node with
            | some o => some o
            | none => dget g node) := by
  induction rows generalizing g with
  | nil => cases hmem
  | cons row rest ih =>
    rw [List.foldl_cons]
    rcases List.mem_cons.mp hmem with heq | hmem'
    · have hrow : row = (node, ds) := heq.symm
      subst hrow
      rw [List.map_cons] at hnodup
      obtain ⟨h1, h2⟩ := List.nodup_cons.mp hnodup
      rw [pc_fold_with_not_mem _ _ _ _ _ h1]
      exact pc_step_with_self _ _ _ _ _ hne hg
    · rw [List.map_cons] at hnodup
      obtain ⟨h1, h2⟩ := List.nodup_cons.mp hnodup
      have hne2 : node ≠ row.1 := by
        intro he
        exact h1 (he ▸ (List.mem_map.mpr ⟨_, hmem', rfl⟩))
      have hg2 : (dget (pc_step_with pick orig g row) node).isSome := by
        rw [pc_step_with_isSome]
        exact hg
      rw [ih _ h2 hmem' hg2, pc_step_with_other _ _ _ _ _ hne2]

/-- On the two-cycle traversal, every admissible descriptor selection
(any `pick` whose choice is an element of the registry set) produces one
of the two outcome states: each registry entry there holds at most two
descriptors, so only the binary choice at `B` matters. -/
theorem process_cycles_two_outcomes (pick : String → List String → String)
    (hpick : ∀ (node : String) (cycle_set : List String),
      cycle_set ≠ [] → pick node cycle_set ∈ cycle_set) :
    process_cycles_with pick claim2_pre = claim2_state_a ∨
    process_cycles_with pick claim2_pre = claim2_state_b := by
  have hcyc : claim2_pre.cycles
      = [("A", ["A -> B -> A"]), ("B", ["A -> B -> A", "B -> C -> B"]),
         ("C", ["B -> C -> B"])] := rfl
  have hA : pick "A" ["A -> B -> A"] = "A -> B -> A" := by
    have h := hpick "A" ["A -> B -> A"] (by simp)
    simpa using h
  have hC : pick "C" ["B -> C -> B"] = "B -> C -> B" := by
    have h := hpick "C" ["B -> C -> B"] (by simp)
    simpa using h
  have hB := hpick "B" ["A -> B -> A", "B -> C -> B"] (by simp)
  simp only [List.mem_cons, List.not_mem_nil, or_false] at hB
  rcases hB with hB | hB
  · left
    apply process_cycles_with_congr
    intro row hrow
    rw [hcyc] at hrow
    simp only [List.mem_cons, List.not_mem_nil, or_false] at hrow
    rcases hrow with rfl | rfl | rfl
    · dsimp only
      rw [hA]
      rfl
    · dsimp only
      rw [hB]
      rfl
    · dsimp only
      rw [hC]
      rfl
  · right
    apply process_cycles_with_congr
    intro row hrow
    rw [hcyc] at hrow
    simp only [List.mem_cons, List.not_mem_nil, or_false] at hrow
    rcases hrow with rfl | rfl | rfl
    · dsimp only
      rw [hA]
      rfl
    · dsimp only
      rw [hB]
      rfl
    · dsimp only
      rw [hC]
      rfl

/-- Claim C2, counterexample: at the completed two-cycle traversal the
registry entry at `B` holds exactly the two descriptors, so by
`process_cycles_two_outcomes` every CPython set-iteration order makes
`_process_cycles` produce `claim2_state_a` or `claim2_state_b` -- and
the claim fails in both.  In `claim2_state_a`, the detected cycle
`B -> C -> B` (lexicographic minimum `B`) is advertised by no node at
all, and `Graph[B]` is the restored `["A", "C"]`.  In `claim2_state_b`,
`B` -- a non-representative member of the detected cycle `A -> B -> A`
(lexicographic minimum `A`, advertised by `A`) holding the snapshot
`["A", "C"]` -- is not restored to that snapshot: its entry is
`[CYCLE: B -> C -> B]`.  So "exactly one `[CYCLE:...]` entry per
distinct cycle and every snapshotted non-representative restored" is
false at this input under every iteration order. -/
theorem claim2_counterexample :
    claim2_pre.cycles = [("A", ["A -> B -> A"]),
      ("B", ["A -> B -> A", "B -> C -> B"]), ("C", ["B -> C -> B"])] ∧
    pySplit " -> " "A -> B -> A" = ["A", "B", "A"] ∧
    pySplit " -> " "B -> C -> B" = ["B", "C", "B"] ∧
    pyMinList ["A", "B", "A"] "B" = "A" ∧
    pyMinList ["B", "C", "B"] "C" = "B" ∧
    dget claim2_pre.original_dependencies "B" = some ["A", "C"] ∧
    claim2_state_a.graph.all (fun row => row.2 != ["CYCLE: B -> C -> B"]) = true ∧
    dget claim2_state_a.graph "B" = some ["A", "C"] ∧
    dget claim2_state_b.graph "A" = some ["CYCLE: A -> B -> A"] ∧
    dget claim2_state_b.graph "B" = some ["CYCLE: B -> C -> B"] :=
  ⟨rfl, rfl, rfl, rfl, rfl, rfl, rfl, rfl, rfl, rfl⟩

/-- Claim C2, amended: `_process_cycles` rewrites each registered node
according to ONE descriptor `d` drawn from the node's own registry
entry -- which one is decided by CPython's hash-order set iteration, so
the statement is proved for an arbitrary selection function `pick`
(every run of the source instantiates it): a node with a Graph entry
becomes `["CYCLE: " ++ d]` when it is the lexicographic minimum of
`d`'s path, and is otherwise restored to its OriginalDependencies
snapshot when one exists (unchanged when none does); unregistered nodes
keep their Graph entries.  "Exactly one `[CYCLE:...]` entry per distinct
cycle with all snapshotted non-representatives restored" follows only
when no node lies on two distinct cycles; with overlapping cycles it
fails under every selection (`claim2_counterexample`). -/
theorem claim2_cycle_rewrite (pick : String → List String → String) (s : GraphState)
    (node : String) (ds : List String)
    (hnodup : (s.cycles.map Prod.fst).Nodup)
    (hc : (node, ds) ∈ s.cycles) (hne : ds ≠ [])
    (hg : (dget s.graph node).isSome) :
    (dget (process_cycles_with pick s).graph node =
      (if node = pyMinList (pySplit " -> " (pick node ds)) node
       then some ["CYCLE: " ++ pick node ds]
       else match dget s.original_dependencies node with
            | some o => some o
            | none => dget s.graph node)) ∧
    (∀ m, m ∉ s.cycles.map Prod.fst →
      dget (process_cycles_with pick s).graph m = dget s.graph m) := by
  constructor
  · exact pc_fold_with_mem _ _ _ _ _ _ hnodup hc hne hg
  · intro m hm
    exact pc_fold_with_not_mem _ _ _ _ _ hm

theorem claim2_witness :
    dget (process_cycles_with claim2_pick_first claim2_pre).graph "C" =
      (if "C" = pyMinList (pySplit " -> "
          (claim2_pick_first "C" ["B -> C -> B"])) "C"
       then some ["CYCLE: " ++ claim2_pick_first "C" ["B -> C -> B"]]
       else match dget claim2_pre.original_dependencies "C" with
            | some o => some o
            | none => dget claim2_pre.graph "C") :=
  (claim2_cycle_rewrite claim2_pick_first claim2_pre "C" ["B -> C -> B"]
    (by decide) (by decide) (by decide) (by decide)).1

/-! Traversal bookkeeping invariants: `visiting` is restored by every
call, and fresh `visited` entries never lie on the caller's
`visiting` path. -/

theorem mem_sadd (l : List String) (y x : String) : x ∈ sadd l y ↔ x ∈ l ∨ x = y := by
  unfold sadd
  by_cases h : y ∈ l
  · rw [if_pos h]
    constructor
    · exact Or.inl
    · rintro (hx | rfl)
      · exact hx
      · exact h
  · rw [if_neg h]
    simp [List.mem_append]

theorem buildLevel_visiting (fetch : String → Option String → Except String (List String))
    (is_test_mode : Bool) (package_filter : String) :
    ∀ (fuel : Nat) (package_name : String) (version : Option String) (s : GraphState),
      (buildLevel fetch is_test_mode package_filter fuel package_name version s).visiting
        = s.visiting := by
  intro fuel
  induction fuel with
  | zero => intro pkg ver s; rfl
  | succ n ih =>
    intro pkg ver s
    unfold buildLevel
    by_cases hf : should_filter_package pkg package_filter = true
    · rw [if_pos hf]
    · rw [if_neg hf]
      by_cases hv : pkg ∈ s.visiting
      · rw [if_pos hv]
      · rw [if_neg hv]
        by_cases hvd : pkg ∈ s.visited
        · rw [if_pos hvd]
        · rw [if_neg hvd]
          have hfold : ∀ (ds : List String) (v : Option String) (st : GraphState),
              (ds.foldl (fun st dep =>
                  buildLevel fetch is_test_mode package_filter n dep v st) st).visiting
                = st.visiting := by
            intro ds v
            induction ds with
            | nil => intro st; rfl
            | cons d rest ihd => intro st; rw [List.foldl_cons, ihd, ih]
          cases hfe : fetch pkg ver with
          | error e =>
            dsimp only
            rw [List.erase_append_right _ hv, List.erase_cons_head, List.append_nil]
          | ok deps =>
            dsimp only
            rw [hfold]
            dsimp only
            rw [List.erase_append_right _ hv, List.erase_cons_head, List.append_nil]

theorem buildLevel_visited_new (fetch : String → Option String → Except String (List String))
    (is_test_mode : Bool) (package_filter : String) :
    ∀ (fuel : Nat) (package_name : String) (version : Option String) (s : GraphState)
      (x : String),
      x ∈ (buildLevel fetch is_test_mode package_filter fuel package_name version s).visited →
        x ∈ s.visited ∨ x ∉ s.visiting := by
  intro fuel
  induction fuel with
  | zero => intro pkg ver s x hx; exact Or.inl hx
  | succ n ih =>
    intro pkg ver s x hx
    rw [show buildLevel fetch is_test_mode package_filter (n + 1) pkg ver s
        = buildLevel fetch is_test_mode package_filter (n + 1) pkg ver s from rfl] at hx
    unfold buildLevel at hx
    by_cases hf : should_filter_package pkg package_filter = true
    · rw [if_pos hf] at hx; exact Or.inl hx
    · rw [if_neg hf] at hx
      by_cases hv : pkg ∈ s.visiting
      · rw [if_pos hv] at hx; exact Or.inl hx
      · rw [if_neg hv] at hx
        by_cases hvd : pkg ∈ s.visited
        · rw [if_pos hvd] at hx; exact Or.inl hx
        · rw [if_neg hvd] at hx
          have hfold : ∀ (ds : List String) (v : Option String) (st : GraphState) (x : String),
              x ∈ (ds.foldl (fun st dep =>
                  buildLevel fetch is_test_mode package_filter n dep v st) st).visited →
                x ∈ st.visited ∨ x ∉ st.visiting := by
            intro ds v
            induction ds with
            | nil => intro st x h; exact Or.inl h
            | cons d rest ihd =>
              intro st x h
              rw [List.foldl_cons] at h
              rcases ihd _ x h with h1 | h2
              · rcases ih d v st x h1 with h3 | h4
                · exact Or.inl h3
                · exact Or.inr h4
              · rw [buildLevel_visiting] at h2
                exact Or.inr h2
          cases hfe : fetch pkg ver with
          | error e =>
            rw [hfe] at hx
            dsimp only at hx
            rcases (mem_sadd _ _ _).mp hx with h1 | rfl
            · exact Or.inl h1
            · exact Or.inr hv
          | ok deps =>
            rw [hfe] at hx
            dsimp only at hx
            rcases (mem_sadd _ _ _).mp hx with h1 | rfl
            · rcases hfold deps _ _ x h1 with h2 | h3
              · exact Or.inl h2
              · dsimp only at h3
                refine Or.inr fun hmem => h3 ?_
                exact List.mem_append.mpr (Or.inl hmem)
            · exact Or.inr hv

theorem build_visiting_restore (fetch : String → Option String → Except String (List String))
    (is_test_mode : Bool) (package_filter package_name : String) (version : Option String)
    (depth max_depth : Nat) (s : GraphState) :
    (build_dependency_graph fetch is_test_mode package_filter package_name version
        depth max_depth s).visiting = s.visiting :=
  buildLevel_visiting fetch is_test_mode package_filter _ package_name version s

theorem build_disjoint_preserved (fetch : String → Option String → Except String (List String))
    (is_test_mode : Bool) (package_filter package_name : String) (version : Option String)
    (depth max_depth : Nat) (s : GraphState)
    (hdisj : ∀ x ∈ s.visited, x ∉ s.visiting) :
    ∀ x ∈ (build_dependency_graph fetch is_test_mode package_filter package_name version
        depth max_depth s).visited,
      x ∉ (build_dependency_graph fetch is_test_mode package_filter package_name version
        depth max_depth s).visiting := by
  intro x hx
  rw [build_visiting_restore]
  rcases buildLevel_visited_new fetch is_test_mode package_filter _ package_name version s x hx
    with h1 | h2
  · exact hdisj x h1
  · exact h2

theorem complete_loop_state (fetch : String → Option String → Except String (List String))
    (is_test_mode : Bool) :
    ∀ (packages : List String) (s : GraphState),
      ((packages.foldl (fun st package =>
          if package ∈ st.visited then st
          else build_dependency_graph fetch is_test_mode "" package none 0 10 st) s).visiting
        = s.visiting) ∧
      ((∀ x ∈ s.visited, x ∉ s.visiting) →
        ∀ x ∈ (packages.foldl (fun st package =>
            if package ∈ st.visited then st
            else build_dependency_graph fetch is_test_mode "" package none 0 10 st) s).visited,
          x ∉ (packages.foldl (fun st package =>
            if package ∈ st.visited then st
            else build_dependency_graph fetch is_test_mode "" package none 0 10 st) s).visiting) := by
  intro packages
  induction packages with
  | nil => exact fun s => ⟨rfl, fun h => h⟩
  | cons p rest ih =>
    intro s
    rw [List.foldl_cons]
    by_cases hp : p ∈ s.visited
    · rw [if_pos hp]
      exact ih s
    · rw [if_neg hp]
      constructor
      · rw [(ih _).1, build_visiting_restore]
      · intro hdisj
        exact (ih _).2 (build_disjoint_preserved fetch is_test_mode "" p none 0 10 s hdisj)

/-- Claim C4: if Visited and VisitingPath are disjoint then after any
`Expand` (`build_dependency_graph`) or `ExpandAll`
(`build_complete_dependency_graph`) call they are disjoint again and
VisitingPath is exactly restored -- in particular a top-level call that
starts with an empty VisitingPath ends with an empty one.  The
restoration lemma `buildLevel_visiting` holds at every recursive call
boundary, which covers every observable point of the traversal;
`buildLevel_visited_new` shows a node enters Visited only if it was not
on the caller's VisitingPath (it is added right after being popped). -/
theorem claim4_disjoint_invariant
    (fetch : String → Option String → Except String (List String))
    (is_test_mode : Bool) (package_filter package_name : String) (version : Option String)
    (depth max_depth : Nat) (packages : List String) (s : GraphState)
    (hdisj : ∀ x ∈ s.visited, x ∉ s.visiting) :
    ((build_dependency_graph fetch is_test_mode package_filter package_name version
        depth max_depth s).visiting = s.visiting) ∧
    (∀ x ∈ (build_dependency_graph fetch is_test_mode package_filter package_name version
        depth max_depth s).visited,
      x ∉ (build_dependency_graph fetch is_test_mode package_filter package_name version
        depth max_depth s).visiting) ∧
    ((build_complete_dependency_graph fetch is_test_mode packages s).visiting = s.visiting) ∧
    (∀ x ∈ (build_complete_dependency_graph fetch is_test_mode packages s).visited,
      x ∉ (build_complete_dependency_graph fetch is_test_mode packages s).visiting) ∧
    (s.visiting = [] →
      (build_dependency_graph fetch is_test_mode package_filter package_name version
        depth max_depth s).visiting = [] ∧
      (build_complete_dependency_graph fetch is_test_mode packages s).visiting = []) := by
  have hc := complete_loop_state fetch is_test_mode packages s
  have hvr := build_visiting_restore fetch is_test_mode package_filter package_name version
    depth max_depth s
  refine ⟨hvr,
    build_disjoint_preserved fetch is_test_mode package_filter package_name version
      depth max_depth s hdisj, ?_, ?_, ?_⟩
  · show (packages.foldl _ s).visiting = s.visiting
    exact hc.1
  · show ∀ x ∈ (packages.foldl _ s).visited, x ∉ (packages.foldl _ s).visiting
    exact hc.2 hdisj
  · intro hnil
    refine ⟨?_, ?_⟩
    · rw [hvr, hnil]
    · show (packages.foldl _ s).visiting = []
      rw [hc.1, hnil]

theorem claim4_witness :
    ((build_dependency_graph (fun _ _ => Except.ok ["Y"]) true "" "Y" none 0 10
        ⟨[], ["X"], [], [], []⟩).visiting = (⟨[], ["X"], [], [], []⟩ : GraphState).visiting) ∧
    (∀ x ∈ (build_dependency_graph (fun _ _ => Except.ok ["Y"]) true "" "Y" none 0 10
        ⟨[], ["X"], [], [], []⟩).visited,
      x ∉ (build_dependency_graph (fun _ _ => Except.ok ["Y"]) true "" "Y" none 0 10
        ⟨[], ["X"], [], [], []⟩).visiting) ∧
    ((build_complete_dependency_graph (fun _ _ => Except.ok ["Y"]) true ["Y", "Z"]
        ⟨[], ["X"], [], [], []⟩).visiting = (⟨[], ["X"], [], [], []⟩ : GraphState).visiting) ∧
    (∀ x ∈ (build_complete_dependency_graph (fun _ _ => Except.ok ["Y"]) true ["Y", "Z"]
        ⟨[], ["X"], [], [], []⟩).visited,
      x ∉ (build_complete_dependency_graph (fun _ _ => Except.ok ["Y"]) true ["Y", "Z"]
        ⟨[], ["X"], [], [], []⟩).visiting) ∧
    ((⟨[], ["X"], [], [], []⟩ : GraphState).visiting = [] →
      (build_dependency_graph (fun _ _ => Except.ok ["Y"]) true "" "Y" none 0 10
        ⟨[], ["X"], [], [], []⟩).visiting = [] ∧
      (build_complete_dependency_graph (fun _ _ => Except.ok ["Y"]) true ["Y", "Z"]
        ⟨[], ["X"], [], [], []⟩).visiting = []) :=
  claim4_disjoint_invariant (fun _ _ => Except.ok ["Y"]) true "" "Y" none 0 10 ["Y", "Z"]
    ⟨[], ["X"], [], [], []⟩ (by decide)

/-! Order engine: the queue discipline of Kahn's algorithm.  The key
invariant: the nodes already ordered together with the queued nodes are
duplicate-free graph keys whose in-degree counter has reached zero (and
a counter at or below zero never re-enters the queue, because a push
happens only when a decrement lands exactly on zero). -/

theorem dgetD_dset_self {α : Type} (d : List (String × α)) (k : String) (v dflt : α) :
    dgetD (dset d k v) k dflt = v := by
  unfold dgetD
  rw [dget_dset_self]
  rfl

theorem dgetD_dset_ne {α : Type} (d : List (String × α)) (k k' : String) (v dflt : α)
    (h : k' ≠ k) : dgetD (dset d k v) k' dflt = dgetD d k' dflt := by
  unfold dgetD
  rw [dget_dset_ne _ _ _ _ h]

theorem process_dependents_inv (keys : List String) :
    ∀ (dependents : List String), (∀ p ∈ dependents, p ∈ keys) →
      ∀ (in_degree : List (String × Int)) (q A : List String),
      kahn_inv keys in_degree (A ++ q) →
      kahn_inv keys (process_dependents dependents (in_degree, q)).1
        (A ++ (process_dependents dependents (in_degree, q)).2) := by
  intro dependents
  induction dependents with
  | nil => intro _ ind q A h; exact h
  | cons dep rest ih =>
    intro hdeps ind q A h
    obtain ⟨hnd, hkeys, hneg⟩ := h
    rw [show process_dependents (dep :: rest) (ind, q)
        = process_dependents rest
            (dset ind dep (dgetD ind dep 0 - 1),
             if dgetD ind dep 0 - 1 = 0 then q ++ [dep] else q) from rfl]
    have hrest : ∀ p ∈ rest, p ∈ keys := fun p hp => hdeps p (List.mem_cons_of_mem _ hp)
    by_cases hmem : dep ∈ A ++ q
    · have hv : ¬ (dgetD ind dep 0 - 1 = 0) := by
        have := hneg dep hmem
        omega
      rw [if_neg hv]
      apply ih hrest
      refine ⟨hnd, hkeys, ?_⟩
      intro x hx
      by_cases hxd : x = dep
      · subst hxd
        rw [dgetD_dset_self]
        have := hneg x hx
        omega
      · rw [dgetD_dset_ne _ _ _ _ _ hxd]
        exact hneg x hx
    · by_cases hv : dgetD ind dep 0 - 1 = 0
      · rw [if_pos hv]
        apply ih hrest
        refine ⟨?_, ?_, ?_⟩
        · have hns : ((A ++ q) ++ [dep]).Nodup := by
            rw [List.nodup_append]
            refine ⟨hnd, List.nodup_singleton _, ?_⟩
            intro a ha hb
            rw [List.mem_singleton] at hb
            subst hb
            exact hmem ha
          simpa [List.append_assoc] using hns
        · intro x hx
          rw [← List.append_assoc] at hx
          rcases List.mem_append.mp hx with h1 | h2
          · exact hkeys x h1
          · rw [List.mem_singleton] at h2
            subst h2
            exact hdeps x (List.mem_cons_self _ _)
        · intro x hx
          rw [← List.append_assoc] at hx
          rcases List.mem_append.mp hx with h1 | h2
          · have hxd : x ≠ dep := fun he => hmem (he ▸ h1)
            rw [dgetD_dset_ne _ _ _ _ _ hxd]
            exact hneg x h1
          · rw [List.mem_singleton] at h2
            subst h2
            rw [dgetD_dset_self]
            omega
      · rw [if_neg hv]
        apply ih hrest
        refine ⟨hnd, hkeys, ?_⟩
        intro x hx
        have hxd : x ≠ dep := fun he => hmem (he ▸ hx)
        rw [dgetD_dset_ne _ _ _ _ _ hxd]
        exact hneg x hx

theorem kahn_loop_inv (keys : List String) (reverse_graph : List (String × List String))
    (hrev : ∀ x : String, ∀ p ∈ dgetD reverse_graph x [], p ∈ keys) :
    ∀ (fuel : Nat) (q : List String) (in_degree : List (String × Int)) (acc : List String),
      kahn_inv keys in_degree (acc ++ q) →
      ∃ q₂ in_degree₂,
        kahn_inv keys in_degree₂ (kahn_loop reverse_graph fuel q in_degree acc ++ q₂) := by
  intro fuel
  induction fuel with
  | zero =>
    intro q ind acc h
    cases q with
    | nil => exact ⟨[], ind, h⟩
    | cons c rest => exact ⟨c :: rest, ind, h⟩
  | succ n ih =>
    intro q ind acc h
    cases q with
    | nil => exact ⟨[], ind, h⟩
    | cons c rest =>
      rw [show kahn_loop reverse_graph (n + 1) (c :: rest) ind acc
          = kahn_loop reverse_graph n
              (process_dependents (dgetD reverse_graph c []) (ind, rest)).2
              (process_dependents (dgetD reverse_graph c []) (ind, rest)).1
              (acc ++ [c]) from rfl]
      apply ih
      have h' : kahn_inv keys ind ((acc ++ [c]) ++ rest) := by
        simpa [List.append_assoc] using h
      exact process_dependents_inv keys _ (hrev c) ind rest (acc ++ [c]) h'

theorem rev_fold_values (package : String) (keys : List String) (hpkg : package ∈ keys) :
    ∀ (deps : List String) (a : List (String × Int) × List (String × List String)),
      rev_values_in a.2 keys →
      rev_values_in ((deps.foldl (fun a dep =>
        if is_sentinel_dep dep then a
        else (dset a.1 package (dgetD a.1 package 0 + 1),
              dset a.2 dep (dgetD a.2 dep [] ++ [package]))) a)).2 keys := by
  intro deps
  induction deps with
  | nil => intro a h; exact h
  | cons dep rest ihd =>
    intro a h
    rw [List.foldl_cons]
    by_cases hs : is_sentinel_dep dep = true
    · rw [if_pos hs]
      exact ihd a h
    · rw [if_neg hs]
      apply ihd
      intro x p hp
      dsimp only at hp
      by_cases hx : x = dep
      · subst hx
        rw [dgetD_dset_self] at hp
        rcases List.mem_append.mp hp with h1 | h2
        · exact h x p h1
        · rw [List.mem_singleton] at h2
          subst h2
          exact hpkg
      · rw [dgetD_dset_ne _ _ _ _ _ hx] at hp
        exact h x p hp

theorem degrees_step_rev (keys : List String)
    (a : List (String × Int) × List (String × List String))
    (package : String) (deps : List String)
    (hpkg : package ∈ keys) (ha : rev_values_in a.2 keys) :
    rev_values_in (degrees_step a package deps).2 keys := by
  unfold degrees_step
  by_cases h0 : (dget a.1 package).isSome
  · rw [if_pos h0]
    exact rev_fold_values package keys hpkg deps a ha
  · rw [if_neg h0]
    exact rev_fold_values package keys hpkg deps _ ha

theorem build_degrees_rev (graph : List (String × List String)) :
    rev_values_in (build_degrees graph).2 (graph.map Prod.fst) := by
  have hgen : ∀ (rows : List (String × List String))
      (a : List (String × Int) × List (String × List String)),
      (∀ r ∈ rows, r.1 ∈ graph.map Prod.fst) →
      rev_values_in a.2 (graph.map Prod.fst) →
      rev_values_in ((rows.foldl (fun acc row => degrees_step acc row.1 row.2) a)).2
        (graph.map Prod.fst) := by
    intro rows
    induction rows with
    | nil => intro a _ h; exact h
    | cons row rest ihr =>
      intro a hmem h
      rw [List.foldl_cons]
      exact ihr _ (fun r hr => hmem r (List.mem_cons_of_mem _ hr))
        (degrees_step_rev _ _ _ _ (hmem row (List.mem_cons_self _ _)) h)
  exact hgen graph ([], [])
    (fun r hr => List.mem_map.mpr ⟨r, hr, rfl⟩)
    (fun x p hp => absurd hp (by simp [dgetD, dget]))

/-- The fallback loop of `calculate_load_order`: appending each missing
graph key keeps the list duplicate-free and makes membership the union
of the loop output and the graph keys. -/
theorem fallback_fold (rows : List (String × List String)) :
    ∀ (lo : List String), lo.Nodup →
      ((rows.foldl (fun lo row => if row.1 ∈ lo then lo else lo ++ [row.1]) lo).Nodup ∧
       ∀ x, x ∈ rows.foldl (fun lo row => if row.1 ∈ lo then lo else lo ++ [row.1]) lo
          ↔ x ∈ lo ∨ x ∈ rows.map Prod.fst) := by
  induction rows with
  | nil =>
    intro lo h
    exact ⟨h, fun x => by simp⟩
  | cons row rest ih =>
    intro lo h
    rw [List.foldl_cons]
    by_cases hm : row.1 ∈ lo
    · rw [if_pos hm]
      obtain ⟨h1, h2⟩ := ih lo h
      refine ⟨h1, fun x => ?_⟩
      rw [h2 x, List.map_cons]
      constructor
      · rintro (hx | hx)
        · exact Or.inl hx
        · exact Or.inr (List.mem_cons_of_mem _ hx)
      · rintro (hx | hx)
        · exact Or.inl hx
        · rcases List.mem_cons.mp hx with rfl | hx'
          · exact Or.inl hm
          · exact Or.inr hx'
    · rw [if_neg hm]
      have hlo' : (lo ++ [row.1]).Nodup := by
        rw [List.nodup_append]
        refine ⟨h, List.nodup_singleton _, ?_⟩
        intro a ha hb
        rw [List.mem_singleton] at hb
        subst hb
        exact hm ha
      obtain ⟨h1, h2⟩ := ih (lo ++ [row.1]) hlo'
      refine ⟨h1, fun x => ?_⟩
      rw [h2 x, List.map_cons]
      constructor
      · rintro (hx | hx)
        · rcases List.mem_append.mp hx with h3 | h3
          · exact Or.inl h3
          · rw [List.mem_singleton] at h3
            subst h3
            exact Or.inr (List.mem_cons_self _ _)
        · exact Or.inr (List.mem_cons_of_mem _ hx)
      · rintro (hx | hx)
        · exact Or.inl (List.mem_append.mpr (Or.inl hx))
        · rcases List.mem_cons.mp hx with rfl | hx'
          · exact Or.inl (List.mem_append.mpr (Or.inr (List.mem_singleton.mpr rfl)))
          · exact Or.inr hx'

theorem kahn_result_props (graph : List (String × List String))
    (hnd : (graph.map Prod.fst).Nodup) :
    (kahn_loop (build_degrees graph).2 (graph.length + total_edges graph + 1)
      ((graph.map (fun row => row.1)).filter
        (fun package => decide (dgetD (build_degrees graph).1 package 0 = 0)))
      (build_degrees graph).1 []).Nodup ∧
    ∀ x ∈ kahn_loop (build_degrees graph).2 (graph.length + total_edges graph + 1)
      ((graph.map (fun row => row.1)).filter
        (fun package => decide (dgetD (build_degrees graph).1 package 0 = 0)))
      (build_degrees graph).1 [],
      x ∈ graph.map Prod.fst := by
  have hrev := build_degrees_rev graph
  have hq0 : kahn_inv (graph.map Prod.fst) (build_degrees graph).1
      ([] ++ (graph.map (fun row => row.1)).filter
        (fun package => decide (dgetD (build_degrees graph).1 package 0 = 0))) := by
    refine ⟨?_, ?_, ?_⟩
    · exact hnd.filter _
    · intro x hx
      exact (List.mem_filter.mp hx).1
    · intro x hx
      have h0 := of_decide_eq_true (List.mem_filter.mp hx).2
      omega
  obtain ⟨q₂, ind₂, hinv⟩ := kahn_loop_inv _ _ hrev _ _ _ _ hq0
  exact ⟨hinv.1.of_append_left,
    fun x hx => hinv.2.1 x (List.mem_append.mpr (Or.inl hx))⟩

/-- Claim C1: `calculate_load_order` fails exactly on an empty Graph
Store; on any non-empty store (the keys of a Python dict are distinct,
hence the `Nodup` hypothesis) it returns a sequence in which every graph
key appears exactly once -- no duplicates and length equal to the number
of keys -- including stores holding cycles or sentinel edges. -/
theorem claim1_load_order_total (start_package : String) (s : GraphState) :
    (s.graph = [] →
      calculate_load_order start_package s = Except.error "Граф зависимостей не построен") ∧
    (s.graph ≠ [] → (s.graph.map Prod.fst).Nodup →
      ∃ o, calculate_load_order start_package s = Except.ok o ∧ o.Nodup ∧
        o.length = s.graph.length ∧ (∀ k, k ∈ o ↔ k ∈ s.graph.map Prod.fst)) := by
  constructor
  · intro h
    unfold calculate_load_order
    rw [if_pos h]
  · intro hne hnd
    obtain ⟨hlon, hlos⟩ := kahn_result_props s.graph hnd
    unfold calculate_load_order
    rw [if_neg hne]
    dsimp only
    by_cases hlen : (kahn_loop (build_degrees s.graph).2
        (s.graph.length + total_edges s.graph + 1)
        ((s.graph.map (fun row => row.1)).filter
          (fun package => decide (dgetD (build_degrees s.graph).1 package 0 = 0)))
        (build_degrees s.graph).1 []).length ≠ s.graph.length
    · rw [if_pos hlen]
      obtain ⟨hfn, hfi⟩ := fallback_fold s.graph _ hlon
      refine ⟨_, rfl, hfn, ?_, ?_⟩
      · have hosub : ∀ x ∈ s.graph.foldl
            (fun lo row => if row.1 ∈ lo then lo else lo ++ [row.1]) _,
            x ∈ s.graph.map Prod.fst :=
          fun x hx => ((hfi x).mp hx).elim (hlos x) id
        have hksub : ∀ x ∈ s.graph.map Prod.fst, x ∈ s.graph.foldl
            (fun lo row => if row.1 ∈ lo then lo else lo ++ [row.1]) _ :=
          fun x hx => (hfi x).mpr (Or.inr hx)
        have h1 := (hfn.subperm hosub).length_le
        have h2 := (hnd.subperm hksub).length_le
        have h3 : (s.graph.map Prod.fst).length = s.graph.length := List.length_map _ _
        omega
      · intro k
        rw [hfi k]
        constructor
        · rintro (hk | hk)
          · exact hlos k hk
          · exact hk
        · exact Or.inr
    · rw [if_neg hlen]
      have hlen' : (kahn_loop (build_degrees s.graph).2
          (s.graph.length + total_edges s.graph + 1)
          ((s.graph.map (fun row => row.1)).filter
            (fun package => decide (dgetD (build_degrees s.graph).1 package 0 = 0)))
          (build_degrees s.graph).1 []).length = s.graph.length := not_not.mp hlen
      refine ⟨_, rfl, hlon, hlen', ?_⟩
      have hsub : ∀ x ∈ kahn_loop (build_degrees s.graph).2
          (s.graph.length + total_edges s.graph + 1)
          ((s.graph.map (fun row => row.1)).filter
            (fun package => decide (dgetD (build_degrees s.graph).1 package 0 = 0)))
          (build_degrees s.graph).1 [], x ∈ s.graph.map Prod.fst := hlos
      have hperm := (hlon.subperm hsub).perm_of_length_le
        (by rw [List.length_map]; omega)
      exact fun k => hperm.mem_iff

theorem claim1_witness :
    ∃ o, calculate_load_order "A" claim1_example_state = Except.ok o ∧ o.Nodup ∧
      o.length = claim1_example_state.graph.length ∧
      (∀ k, k ∈ o ↔ k ∈ claim1_example_state.graph.map Prod.fst) :=
  (claim1_load_order_total "A" claim1_example_state).2 (by decide) (by decide)

/-! The fuel passed to `kahn_loop` is unreachable: one unit is consumed
per pop, each pop moves a fresh graph key out of the queue, and the
number of keys never yet seen plus the queue length falls by exactly one
each iteration, so any fuel at least that quantity gives the same result
as any larger fuel -- the fueled loop coincides with the source's
unbounded `while` loop. -/

theorem missing_count_single (keys l : List String) (x : String)
    (hknd : keys.Nodup) (hxk : x ∈ keys) (hxl : ¬ x ∈ l) :
    missing_count keys (l ++ [x]) + 1 = missing_count keys l := by
  unfold missing_count
  have h1 : keys.filter (fun y => decide (¬ y ∈ l ++ [x]))
      = (keys.filter (fun y => decide (¬ y ∈ l))).filter (fun y => y != x) := by
    rw [List.filter_filter]
    apply List.filter_congr
    intro y _
    rcases Decidable.em (y ∈ l) with h | h <;> rcases Decidable.em (y = x) with h2 | h2 <;>
      simp [h, h2, List.mem_append]
  have hF : (keys.filter (fun y => decide (¬ y ∈ l))).Nodup := hknd.filter _
  have hxF : x ∈ keys.filter (fun y => decide (¬ y ∈ l)) :=
    List.mem_filter.mpr ⟨hxk, by simp [hxl]⟩
  rw [h1, ← hF.erase_eq_filter x, List.length_erase_of_mem hxF]
  have hpos := List.length_pos.mpr (List.ne_nil_of_mem hxF)
  omega

theorem missing_count_append (keys : List String) (hknd : keys.Nodup) :
    ∀ (new l : List String), new.Nodup → (∀ x ∈ new, x ∈ keys) →
      (∀ x ∈ new, ¬ x ∈ l) →
      missing_count keys (l ++ new) + new.length = missing_count keys l := by
  intro new
  induction new with
  | nil =>
    intro l _ _ _
    rw [List.append_nil]
    rfl
  | cons x new' ih =>
    intro l hnd hk hl
    have he : l ++ x :: new' = (l ++ [x]) ++ new' := by simp
    rw [he]
    have hnd' := List.nodup_cons.mp hnd
    have step := ih (l ++ [x]) hnd'.2 (fun y hy => hk y (List.mem_cons_of_mem _ hy))
      (fun y hy hmem => by
        rcases List.mem_append.mp hmem with h1 | h2
        · exact hl y (List.mem_cons_of_mem _ hy) h1
        · rw [List.mem_singleton] at h2
          exact hnd'.1 (h2 ▸ hy))
    have single := missing_count_single keys l x hknd (hk x (List.mem_cons_self _ _))
      (hl x (List.mem_cons_self _ _))
    simp only [List.length_cons]
    omega

theorem process_dependents_extends :
    ∀ (dependents : List String) (in_degree : List (String × Int)) (q : List String),
      ∃ new, (process_dependents dependents (in_degree, q)).2 = q ++ new := by
  intro dependents
  induction dependents with
  | nil => intro ind q; exact ⟨[], (List.append_nil q).symm⟩
  | cons dep rest ih =>
    intro ind q
    rw [show process_dependents (dep :: rest) (ind, q)
        = process_dependents rest
            (dset ind dep (dgetD ind dep 0 - 1),
             if dgetD ind dep 0 - 1 = 0 then q ++ [dep] else q) from rfl]
    by_cases hv : dgetD ind dep 0 - 1 = 0
    · rw [if_pos hv]
      obtain ⟨new, hnew⟩ := ih (dset ind dep (dgetD ind dep 0 - 1)) (q ++ [dep])
      exact ⟨[dep] ++ new, by rw [hnew, List.append_assoc]⟩
    · rw [if_neg hv]
      exact ih _ q

theorem kahn_loop_fuel_step (keys : List String)
    (reverse_graph : List (String × List String))
    (hrev : rev_values_in reverse_graph keys) (hknd : keys.Nodup) :
    ∀ (fuel : Nat) (q : List String) (in_degree : List (String × Int)) (acc : List String),
      kahn_inv keys in_degree (acc ++ q) →
      missing_count keys (acc ++ q) + q.length ≤ fuel →
      kahn_loop reverse_graph fuel q in_degree acc
        = kahn_loop reverse_graph (fuel + 1) q in_degree acc := by
  intro fuel
  induction fuel with
  | zero =>
    intro q ind acc _ hb
    cases q with
    | nil => rfl
    | cons c rest => simp [List.length_cons] at hb
  | succ n ih =>
    intro q ind acc hinv hb
    cases q with
    | nil => rfl
    | cons c rest =>
      rw [show kahn_loop reverse_graph (n + 1) (c :: rest) ind acc
          = kahn_loop reverse_graph n
              (process_dependents (dgetD reverse_graph c []) (ind, rest)).2
              (process_dependents (dgetD reverse_graph c []) (ind, rest)).1
              (acc ++ [c]) from rfl,
          show kahn_loop reverse_graph (n + 1 + 1) (c :: rest) ind acc
          = kahn_loop reverse_graph (n + 1)
              (process_dependents (dgetD reverse_graph c []) (ind, rest)).2
              (process_dependents (dgetD reverse_graph c []) (ind, rest)).1
              (acc ++ [c]) from rfl]
      have hinv0 : kahn_inv keys ind ((acc ++ [c]) ++ rest) := by
        simpa [List.append_assoc] using hinv
      have hinv' := process_dependents_inv keys _ (hrev c) ind rest (acc ++ [c]) hinv0
      obtain ⟨new, hnew⟩ := process_dependents_extends (dgetD reverse_graph c []) ind rest
      have hre : (acc ++ [c]) ++ (rest ++ new) = (acc ++ c :: rest) ++ new := by simp
      have hinv2 := hinv'
      rw [hnew, hre] at hinv2
      obtain ⟨hn1, hn2, hdisj⟩ := List.nodup_append.mp hinv2.1
      have hnewk : ∀ x ∈ new, x ∈ keys := fun x hx =>
        hinv2.2.1 x (List.mem_append.mpr (Or.inr hx))
      have hnewd : ∀ x ∈ new, ¬ x ∈ acc ++ c :: rest := fun x hx hmem => hdisj hmem hx
      have hcount := missing_count_append keys hknd new (acc ++ c :: rest) hn2 hnewk hnewd
      refine ih _ _ _ hinv' ?_
      rw [hnew, List.length_append]
      have hmc : missing_count keys ((acc ++ [c]) ++ (rest ++ new))
          = missing_count keys ((acc ++ c :: rest) ++ new) := by rw [hre]
      rw [hmc]
      simp only [List.length_cons] at hb
      omega

/-- Instantiated at the call in `calculate_load_order`: increasing the
fuel beyond `len(graph) + total_edges + 1` never changes the result, so
the fuel cutoff branch of `kahn_loop` is dead code for that call. -/
theorem calculate_load_order_fuel_stable (s : GraphState)
    (hnd : (s.graph.map Prod.fst).Nodup) (extra : Nat) :
    kahn_loop (build_degrees s.graph).2 (s.graph.length + total_edges s.graph + 1)
      ((s.graph.map (fun row => row.1)).filter
        (fun package => decide (dgetD (build_degrees s.graph).1 package 0 = 0)))
      (build_degrees s.graph).1 []
    = kahn_loop (build_degrees s.graph).2 (s.graph.length + total_edges s.graph + 1 + extra)
      ((s.graph.map (fun row => row.1)).filter
        (fun package => decide (dgetD (build_degrees s.graph).1 package 0 = 0)))
      (build_degrees s.graph).1 [] := by
  have hrev := build_degrees_rev s.graph
  have hq0 : kahn_inv (s.graph.map Prod.fst) (build_degrees s.graph).1
      ([] ++ (s.graph.map (fun row => row.1)).filter
        (fun package => decide (dgetD (build_degrees s.graph).1 package 0 = 0))) := by
    refine ⟨?_, ?_, ?_⟩
    · exact hnd.filter _
    · intro x hx
      exact (List.mem_filter.mp hx).1
    · intro x hx
      have h0 := of_decide_eq_true (List.mem_filter.mp hx).2
      omega
  have hb0 : missing_count (s.graph.map Prod.fst)
      ([] ++ (s.graph.map (fun row => row.1)).filter
        (fun package => decide (dgetD (build_degrees s.graph).1 package 0 = 0)))
      + ((s.graph.map (fun row => row.1)).filter
        (fun package => decide (dgetD (build_degrees s.graph).1 package 0 = 0))).length
      = (s.graph.map Prod.fst).length := by
    have happ := missing_count_append (s.graph.map Prod.fst) hnd
      ((s.graph.map (fun row => row.1)).filter
        (fun package => decide (dgetD (build_degrees s.graph).1 package 0 = 0))) []
      (hnd.filter _) (fun x hx => (List.mem_filter.mp hx).1)
      (fun x _ hx => (List.not_mem_nil x) hx)
    have hmt : missing_count (s.graph.map Prod.fst) [] = (s.graph.map Prod.fst).length := by
      unfold missing_count
      simp
    rw [← hmt]
    exact happ
  have hkl : (s.graph.map Prod.fst).length = s.graph.length := List.length_map _ _
  induction extra with
  | zero => rfl
  | succ m ihm =>
    rw [ihm]
    exact kahn_loop_fuel_step (s.graph.map Prod.fst) (build_degrees s.graph).2 hrev hnd
      (s.graph.length + total_edges s.graph + 1 + m) _ _ _ hq0 (by omega)

/-- Unfolding equation certifying the fuel encoding: applied to any
arguments, `build_dependency_graph` satisfies exactly the branch
structure of the Python source -- depth cutoff, filter, back-edge,
visited, and the expand step recursing into each dependency at
`depth + 1`. -/
theorem build_dependency_graph_eq
    (fetch : String → Option String → Except String (List String))
    (is_test_mode : Bool) (package_filter package_name : String) (version : Option String)
    (depth max_depth : Nat) (s : GraphState) :
    build_dependency_graph fetch is_test_mode package_filter package_name version
        depth max_depth s =
      if depth > max_depth then
        { s with graph := dset s.graph package_name ["MAX_DEPTH_REACHED"] }
      else if should_filter_package package_name package_filter then
        { s with graph := dset s.graph package_name ["FILTERED"] }
      else if package_name ∈ s.visiting then
        let cycle_path :=
          s.visiting.drop (s.visiting.findIdx (fun x => x == package_name)) ++ [package_name]
        let cycle_key := pyJoin " -> " cycle_path
        { s with
          cycles := cycle_path.foldl (fun c n => cycles_add c n cycle_key) s.cycles,
          graph := if (dget s.graph package_name).isSome then s.graph
                   else dset s.graph package_name [] }
      else if package_name ∈ s.visited then s
      else
        let s1 := { s with visiting := s.visiting ++ [package_name] }
        match fetch package_name version with
        | Except.error e =>
          let s2 := { s1 with graph := dset s1.graph package_name ["ERROR: " ++ e] }
          { s2 with
            visiting := s2.visiting.erase package_name,
            visited := sadd s2.visited package_name }
        | Except.ok dependencies =>
          let s2 := { s1 with
            original_dependencies := dset s1.original_dependencies package_name dependencies,
            graph := dset s1.graph package_name dependencies }
          let dep_version := if is_test_mode then none else version
          let s3 := dependencies.foldl
            (fun st dep => build_dependency_graph fetch is_test_mode package_filter dep
              dep_version (depth + 1) max_depth st) s2
          { s3 with
            visiting := s3.visiting.erase package_name,
            visited := sadd s3.visited package_name } := by
  by_cases hd : depth > max_depth
  · rw [if_pos hd]
    have h0 : max_depth + 1 - depth = 0 := by omega
    unfold build_dependency_graph
    rw [h0]
    rfl
  · rw [if_neg hd]
    obtain ⟨n, hn⟩ : ∃ n, max_depth + 1 - depth = n + 1 := ⟨max_depth - depth, by omega⟩
    have hrec : max_depth + 1 - (depth + 1) = n := by omega
    unfold build_dependency_graph
    rw [hn, hrec]
    rfl
